import Mathlib

/-!
Shallow embedding of `run` from `pdbtools/pdb_reordername.py` (pdb-tools).

Lines are modelled as lists of characters (Python `str`), the residue-name
set as a list of tokens with membership up to equality, and the two Python
dicts (`ref_atom_order`, `residue_lines`) as insertion-ordered association
lists, matching the CPython dict iteration order.  All functions are total
and executable, mirroring the source line by line.
-/

namespace PdbReorder

/-- A text line, modelled as its list of characters (a Python `str`). -/
abbrev Line := List Char

/-- A field token (residue name, atom name, residue sequence id). -/
abbrev Token := List Char

/-- The tuple `records = ('ATOM', 'HETATM', 'ANISOU', 'TER')`. -/
def records : List Token := ["ATOM".toList, "HETATM".toList, "ANISOU".toList, "TER".toList]

/-- Python `line.startswith(records)`: prefix match against any of the four
record keywords. -/
def startswithRecords (l : Line) : Bool := records.any (fun r => r.isPrefixOf l)

/-- The whitespace characters stripped by Python `str.strip()`. -/
def isPySpace (c : Char) : Bool :=
  c == ' ' || c == '\t' || c == '\n' || c == '\r' || c == '\u000B' || c == '\u000C'

/-- Python `s.strip()`: remove leading and trailing whitespace. -/
def pyStrip (l : List Char) : List Char :=
  ((l.dropWhile isPySpace).reverse.dropWhile isPySpace).reverse

/-- Python `line[a:b]` for `0 ≤ a ≤ b`: the characters at indices `[a, b)`.
Total: a short line simply yields a short (possibly empty) slice. -/
def pySlice (l : Line) (a b : Nat) : Line := (l.drop a).take (b - a)

/-- The atom-name field `line[12:16].strip()`. -/
def atomNameOf (l : Line) : Token := pyStrip (pySlice l 12 16)

/-- The residue-name field `line[17:20].strip()`. -/
def resnameOf (l : Line) : Token := pyStrip (pySlice l 17 20)

/-- The residue-sequence-id field `line[22:26].strip()`. -/
def residOf (l : Line) : Token := pyStrip (pySlice l 22 26)

/-- Lookup in an insertion-ordered association list (Python `d[k]` /
`k in d`). -/
def alookup {α : Type} : List (Token × α) → Token → Option α
  | [], _ => none
  | e :: es, k => if e.1 = k then some e.2 else alookup es k

/-- Update in an insertion-ordered association list: replace the value of an
existing key in place, or append a new key at the end — CPython dict
assignment semantics. -/
def aupdate {α : Type} : List (Token × α) → Token → α → List (Token × α)
  | [], k, v => [(k, v)]
  | e :: es, k, v => if e.1 = k then (k, v) :: es else e :: aupdate es k v

/-- The dict `ref_atom_order`: residue name → learned atom-name order. -/
abbrev RefOrder := List (Token × List Token)

/-- The dict `residue_lines`: residue sequence id → collected lines. -/
abbrev BucketMap := List (Token × List Line)

/-- Result of the first `for` loop of `run` (phase 1): the lines yielded so
far, the learned `ref_atom_order`, the `buffer_line`, and the part of the
input not yet consumed when the loop ended. -/
structure P1 where
  yielded : List Line
  ref : RefOrder
  buffer : Option Line
  rest : List Line
deriving DecidableEq, Repr

/-- Phase 1 of `run`: walk the input learning `ref_atom_order`, yielding
non-record lines and first-seen atom lines, until the first repeated atom
name for a matching residue breaks the loop (that line becomes
`buffer_line`).  Note the source has no `else` for a record line whose
residue name is not in the set: such a line is neither yielded nor stored. -/
def phase1 (S : List Token) : List Line → RefOrder → P1
  | [], ref => ⟨[], ref, none, []⟩
  | l :: ls, ref =>
    if startswithRecords l then
      if resnameOf l ∈ S then
        let cur := (alookup ref (resnameOf l)).getD []
        if atomNameOf l ∈ cur then
          ⟨[], ref, some l, ls⟩
        else
          let r := phase1 S ls (aupdate ref (resnameOf l) (cur ++ [atomNameOf l]))
          ⟨l :: r.yielded, r.ref, r.buffer, r.rest⟩
      else
        phase1 S ls ref
    else
      let r := phase1 S ls ref
      ⟨l :: r.yielded, r.ref, r.buffer, r.rest⟩

/-- Python `residue_lines[resid].append(line)`, creating the bucket first
when the key is new (`if resid not in residue_lines: residue_lines[resid] = []`). -/
def insertBucket (rl : BucketMap) (l : Line) : BucketMap :=
  aupdate rl (residOf l) (((alookup rl (residOf l)).getD []) ++ [l])

/-- Phase 2 of `run`: the second `for` loop.  Matching record lines go to
`residue_lines`; everything else is appended to `not_residues_lines`. -/
def phase2 (S : List Token) : List Line → BucketMap → List Line → BucketMap × List Line
  | [], rl, held => (rl, held)
  | l :: ls, rl, held =>
    if startswithRecords l then
      if resnameOf l ∈ S then
        phase2 S ls (insertBucket rl l) held
      else
        phase2 S ls rl (held ++ [l])
    else
      phase2 S ls rl (held ++ [l])

/-- The `sorted_lines` accumulation: for each atom name of the learned order,
extend with the bucket lines whose atom-name field equals it. -/
def buildSorted (lines : List Line) : List Token → List Line
  | [] => []
  | an :: ans => lines.filter (fun l => atomNameOf l = an) ++ buildSorted lines ans

/-- Replay of one bucket: look up the residue name of the first line in
`ref_atom_order`; reorder by the learned atom order when present, otherwise
yield the lines unchanged. -/
def replayBucket (ref : RefOrder) (lines : List Line) : List Line :=
  match alookup ref (resnameOf (lines.headD [])) with
  | some atomOrder => buildSorted lines atomOrder
  | none => lines

/-- Processing of `buffer_line` after the phase-1 loop: the source re-checks
the record prefix and set membership before bucketing it. -/
def bufferBuckets (S : List Token) : Option Line → BucketMap
  | none => []
  | some b =>
    if startswithRecords b then
      if resnameOf b ∈ S then insertBucket [] b else []
    else []

/-- The whole of `run(fhandle, resname_set)`, as the list of yielded lines:
phase-1 output, then the replayed buckets in dict insertion order, then the
collected `not_residues_lines`. -/
def run (lines : List Line) (S : List Token) : List Line :=
  let p := phase1 S lines []
  let p2 := phase2 S p.rest (bufferBuckets S p.buffer) []
  p.yielded ++ (p2.1.map (fun e => replayBucket p.ref e.2)).flatten ++ p2.2

/-- A phase-2 line is routed to a bucket exactly when it is a record line
whose trimmed residue name is in the set. -/
def isMatch (S : List Token) (l : Line) : Bool :=
  startswithRecords l && decide (resnameOf l ∈ S)

/-- First occurrences of a token list, in order of first appearance
(the order in which dict keys are created). -/
def firstSeen : List Token → List Token
  | [] => []
  | k :: ks => k :: firstSeen (ks.filter (fun x => decide (x ≠ k)))
termination_by l => l.length
decreasing_by
  simp only [List.length_cons]
  exact Nat.lt_succ_of_le (List.length_filter_le _ _)

/-- All lines held in the buckets, in bucket order. -/
def bucketLines (rl : BucketMap) : List Line := (rl.map (fun e => e.2)).flatten

/-- Sample line: ALA residue 1, atom N. -/
def alaN1 : Line := "ATOM      1  N   ALA A   1".toList

/-- Sample line: ALA residue 1, atom CA. -/
def alaCA1 : Line := "ATOM      2  CA  ALA A   1".toList

/-- Sample line: ALA residue 2, atom N. -/
def alaN2 : Line := "ATOM      7  N   ALA A   2".toList

/-- Sample line: ALA residue 2, atom CA. -/
def alaCA2 : Line := "ATOM      8  CA  ALA A   2".toList

/-- Sample line: GLY residue 3, atom N. -/
def glyN3 : Line := "ATOM      3  N   GLY A   3".toList

/-- Sample non-record line. -/
def remarkLine : Line := "REMARK fixed".toList

/-- Sample residue-name set containing only ALA. -/
def setALA : List Token := ["ALA".toList]

/-- Sample residue-name set containing ALA and GLY. -/
def setALAGLY : List Token := ["ALA".toList, "GLY".toList]

/-- Sample line whose raw residue-sequence-id field [22,26) reads " 2  ". -/
def alaCArawA : Line := "ATOM      8  CA  ALA A 2  ".toList

/-- Sample line whose raw residue-sequence-id field [22,26) reads "  2 ". -/
def alaNrawB : Line := "ATOM      9  N   ALA A  2 ".toList

/-- Sample line: GLY with residue sequence id 7. -/
def glyCA7 : Line := "ATOM      4  CA  GLY A   7".toList

/-- Sample line: ALA with residue sequence id 7. -/
def alaN7 : Line := "ATOM      5  N   ALA A   7".toList

/-- Sample learned reference order: ALA → [N, CA]. -/
def refW : RefOrder := [("ALA".toList, ["N".toList, "CA".toList])]

/-- Sample reference order that has no entry for ALA. -/
def refGLYonly : RefOrder := [("GLY".toList, ["X".toList])]

/-! ### Association-list lemmas -/

theorem alookup_cons_self {α : Type} {e : Token × α} {es : List (Token × α)} {k : Token}
    (he : e.1 = k) : alookup (e :: es) k = some e.2 := by
  simp [alookup, he]

theorem alookup_cons_ne {α : Type} {e : Token × α} {es : List (Token × α)} {k : Token}
    (he : ¬ e.1 = k) : alookup (e :: es) k = alookup es k := by
  simp [alookup, he]

theorem alookup_eq_none_iff {α : Type} (m : List (Token × α)) (k : Token) :
    alookup m k = none ↔ k ∉ m.map Prod.fst := by
  induction m with
  | nil => simp [alookup]
  | cons e es ih =>
    by_cases h : e.1 = k
    · rw [alookup_cons_self h, List.map_cons]
      exact iff_of_false (Option.some_ne_none _)
        (fun hk => hk (List.mem_cons.mpr (Or.inl h.symm)))
    · rw [alookup_cons_ne h, ih, List.map_cons]
      constructor
      · intro h1 h2
        rcases List.mem_cons.mp h2 with h' | h'
        · exact h h'.symm
        · exact h1 h'
      · intro h1 h2
        exact h1 (List.mem_cons_of_mem _ h2)

theorem alookup_mem {α : Type} {m : List (Token × α)} {k : Token} {v : α}
    (h : alookup m k = some v) : (k, v) ∈ m := by
  induction m with
  | nil => simp [alookup] at h
  | cons e es ih =>
    by_cases he : e.1 = k
    · rw [alookup_cons_self he] at h
      have hv : e.2 = v := Option.some.inj h
      have : e = (k, v) := by
        cases e
        simp_all
      rw [← this]
      exact List.mem_cons_self _ _
    · rw [alookup_cons_ne he] at h
      exact List.mem_cons_of_mem _ (ih h)

theorem aupdate_keys_of_mem {α : Type} {m : List (Token × α)} {k : Token} (v : α)
    (h : k ∈ m.map Prod.fst) : (aupdate m k v).map Prod.fst = m.map Prod.fst := by
  induction m with
  | nil => rw [List.map_nil] at h; cases h
  | cons e es ih =>
    by_cases he : e.1 = k
    · simp [aupdate, he]
    · have hk : k ∈ es.map Prod.fst := by
        rcases List.mem_cons.mp h with h' | h'
        · exact absurd h'.symm he
        · exact h'
      simp [aupdate, he, ih hk]

theorem aupdate_keys_of_not_mem {α : Type} {m : List (Token × α)} {k : Token} (v : α)
    (h : k ∉ m.map Prod.fst) : (aupdate m k v).map Prod.fst = m.map Prod.fst ++ [k] := by
  induction m with
  | nil => simp [aupdate]
  | cons e es ih =>
    have he : e.1 ≠ k := by
      intro h'
      exact h (List.map_cons _ _ _ ▸ List.mem_cons.mpr (Or.inl h'.symm))
    have hk : k ∉ es.map Prod.fst := fun h' =>
      h (List.map_cons _ _ _ ▸ List.mem_cons_of_mem _ h')
    simp [aupdate, he, ih hk]

theorem mem_aupdate {α : Type} {m : List (Token × α)} {k : Token} {v : α} :
    ∀ e ∈ aupdate m k v, e ∈ m ∨ e = (k, v) := by
  induction m with
  | nil => simp [aupdate]
  | cons e' es ih =>
    intro e he
    by_cases hk : e'.1 = k
    · simp only [aupdate, if_pos hk] at he
      rcases List.mem_cons.mp he with h | h
      · right; exact h
      · left; exact List.mem_cons_of_mem _ h
    · simp only [aupdate, if_neg hk] at he
      rcases List.mem_cons.mp he with h | h
      · left; simp [h]
      · rcases ih e h with h' | h'
        · left; exact List.mem_cons_of_mem _ h'
        · right; exact h'

/-! ### Counting lemmas -/

theorem count_filter_eq (p : Line → Bool) (x : Line) (l : List Line) :
    (l.filter p).count x = if p x then l.count x else 0 := by
  induction l with
  | nil => simp
  | cons a t ih =>
    by_cases hpa : p a
    · rw [List.filter_cons_of_pos hpa, List.count_cons, List.count_cons, ih]
      by_cases hax : a = x
      · subst hax; simp [hpa]
      · simp [hax]
    · rw [List.filter_cons_of_neg hpa, ih, List.count_cons]
      by_cases hax : a = x
      · subst hax; simp [hpa]
      · simp [hax]

theorem buildSorted_eq_flatten (lines : List Line) (order : List Token) :
    buildSorted lines order
      = (order.map (fun an => lines.filter (fun l => atomNameOf l = an))).flatten := by
  induction order with
  | nil => simp [buildSorted]
  | cons a t ih => simp [buildSorted, ih]

theorem buildSorted_count (lines : List Line) (x : Line) :
    ∀ order : List Token, order.Nodup →
      (buildSorted lines order).count x
        = if atomNameOf x ∈ order then lines.count x else 0 := by
  intro order
  induction order with
  | nil => simp [buildSorted]
  | cons a t ih =>
    intro hnd
    obtain ⟨ha, ht⟩ := List.nodup_cons.mp hnd
    rw [show buildSorted lines (a :: t)
          = lines.filter (fun l => atomNameOf l = a) ++ buildSorted lines t from rfl,
        List.count_append, count_filter_eq, ih ht]
    by_cases hx : atomNameOf x = a
    · subst hx
      simp [ha]
    · simp [hx]

/-! ### Unfolding lemmas for the two phases -/

theorem isMatch_true_iff (S : List Token) (l : Line) :
    isMatch S l = true ↔ (startswithRecords l = true ∧ resnameOf l ∈ S) := by
  simp [isMatch]

theorem phase1_nil (S : List Token) (ref : RefOrder) :
    phase1 S [] ref = ⟨[], ref, none, []⟩ := rfl

theorem phase1_cons_pass {S : List Token} {l : Line} (ls : List Line) (ref : RefOrder)
    (h1 : startswithRecords l = false) :
    phase1 S (l :: ls) ref
      = ⟨l :: (phase1 S ls ref).yielded, (phase1 S ls ref).ref,
          (phase1 S ls ref).buffer, (phase1 S ls ref).rest⟩ := by
  simp [phase1, h1]

theorem phase1_cons_drop {S : List Token} {l : Line} (ls : List Line) (ref : RefOrder)
    (h1 : startswithRecords l = true) (h2 : ¬ resnameOf l ∈ S) :
    phase1 S (l :: ls) ref = phase1 S ls ref := by
  simp [phase1, h1, h2]

theorem phase1_cons_learn {S : List Token} {l : Line} (ls : List Line) (ref : RefOrder)
    (h1 : startswithRecords l = true) (h2 : resnameOf l ∈ S)
    (h3 : ¬ atomNameOf l ∈ (alookup ref (resnameOf l)).getD []) :
    phase1 S (l :: ls) ref
      = ⟨l :: (phase1 S ls (aupdate ref (resnameOf l)
                ((alookup ref (resnameOf l)).getD [] ++ [atomNameOf l]))).yielded,
          (phase1 S ls (aupdate ref (resnameOf l)
                ((alookup ref (resnameOf l)).getD [] ++ [atomNameOf l]))).ref,
          (phase1 S ls (aupdate ref (resnameOf l)
                ((alookup ref (resnameOf l)).getD [] ++ [atomNameOf l]))).buffer,
          (phase1 S ls (aupdate ref (resnameOf l)
                ((alookup ref (resnameOf l)).getD [] ++ [atomNameOf l]))).rest⟩ := by
  simp [phase1, h1, h2, h3]

theorem phase1_cons_break {S : List Token} {l : Line} (ls : List Line) (ref : RefOrder)
    (h1 : startswithRecords l = true) (h2 : resnameOf l ∈ S)
    (h3 : atomNameOf l ∈ (alookup ref (resnameOf l)).getD []) :
    phase1 S (l :: ls) ref = ⟨[], ref, some l, ls⟩ := by
  simp [phase1, h1, h2, h3]

theorem phase2_nil (S : List Token) (rl : BucketMap) (held : List Line) :
    phase2 S [] rl held = (rl, held) := rfl

theorem phase2_cons_match {S : List Token} {l : Line} (ls : List Line) (rl : BucketMap)
    (held : List Line) (hm : isMatch S l = true) :
    phase2 S (l :: ls) rl held = phase2 S ls (insertBucket rl l) held := by
  obtain ⟨h1, h2⟩ := (isMatch_true_iff S l).mp hm
  simp [phase2, h1, h2]

theorem phase2_cons_not_match {S : List Token} {l : Line} (ls : List Line) (rl : BucketMap)
    (held : List Line) (hm : isMatch S l = false) :
    phase2 S (l :: ls) rl held = phase2 S ls rl (held ++ [l]) := by
  by_cases h1 : startswithRecords l
  · have h2 : ¬ resnameOf l ∈ S := by
      intro h2
      rw [(isMatch_true_iff S l).mpr ⟨h1, h2⟩] at hm
      cases hm
    simp [phase2, h1, h2]
  · simp [phase2, h1]

/-! ### Phase-1 invariants -/

theorem phase1_buffer_isMatch (S : List Token) :
    ∀ (lines : List Line) (ref : RefOrder) (b : Line),
      (phase1 S lines ref).buffer = some b → isMatch S b = true := by
  intro lines
  induction lines with
  | nil =>
    intro ref b h
    simp [phase1_nil] at h
  | cons l ls ih =>
    intro ref b h
    by_cases h1 : startswithRecords l
    · by_cases h2 : resnameOf l ∈ S
      · by_cases h3 : atomNameOf l ∈ (alookup ref (resnameOf l)).getD []
        · rw [phase1_cons_break ls ref h1 h2 h3] at h
          obtain rfl : l = b := Option.some.inj h
          exact (isMatch_true_iff S l).mpr ⟨h1, h2⟩
        · rw [phase1_cons_learn ls ref h1 h2 h3] at h
          exact ih _ _ h
      · rw [phase1_cons_drop ls ref h1 h2] at h
        exact ih _ _ h
    · rw [phase1_cons_pass ls ref (Bool.of_not_eq_true h1)] at h
      exact ih _ _ h

theorem phase1_parts_sublist (S : List Token) :
    ∀ (lines : List Line) (ref : RefOrder),
      ((phase1 S lines ref).yielded
        ++ ((phase1 S lines ref).buffer.toList ++ (phase1 S lines ref).rest)).Sublist
        lines := by
  intro lines
  induction lines with
  | nil =>
    intro ref
    simp [phase1_nil]
  | cons l ls ih =>
    intro ref
    by_cases h1 : startswithRecords l
    · by_cases h2 : resnameOf l ∈ S
      · by_cases h3 : atomNameOf l ∈ (alookup ref (resnameOf l)).getD []
        · rw [phase1_cons_break ls ref h1 h2 h3]
          simp
        · rw [phase1_cons_learn ls ref h1 h2 h3]
          simp only [List.cons_append]
          exact List.Sublist.cons₂ l (ih _)
      · rw [phase1_cons_drop ls ref h1 h2]
        exact List.Sublist.cons l (ih _)
    · rw [phase1_cons_pass ls ref (Bool.of_not_eq_true h1)]
      simp only [List.cons_append]
      exact List.Sublist.cons₂ l (ih _)

theorem phase1_ref_nodup (S : List Token) :
    ∀ (lines : List Line) (ref : RefOrder),
      (∀ kv ∈ ref, kv.2.Nodup) → ∀ kv ∈ (phase1 S lines ref).ref, kv.2.Nodup := by
  intro lines
  induction lines with
  | nil =>
    intro ref h
    exact h
  | cons l ls ih =>
    intro ref h
    by_cases h1 : startswithRecords l
    · by_cases h2 : resnameOf l ∈ S
      · by_cases h3 : atomNameOf l ∈ (alookup ref (resnameOf l)).getD []
        · rw [phase1_cons_break ls ref h1 h2 h3]
          exact h
        · rw [phase1_cons_learn ls ref h1 h2 h3]
          refine ih _ ?_
          intro kv hkv
          rcases mem_aupdate kv hkv with hm | heq
          · exact h kv hm
          · rw [heq]
            have hcur : ((alookup ref (resnameOf l)).getD []).Nodup := by
              cases hl : alookup ref (resnameOf l) with
              | none => simp
              | some v =>
                simpa using h (resnameOf l, v) (alookup_mem hl)
            refine List.nodup_append.mpr ⟨hcur, List.nodup_singleton _, ?_⟩
            intro a ha hb
            rw [List.mem_singleton.mp hb] at ha
            exact h3 ha
      · rw [phase1_cons_drop ls ref h1 h2]
        exact ih _ h
    · rw [phase1_cons_pass ls ref (Bool.of_not_eq_true h1)]
      exact ih _ h

/-! ### Phase-2 structure -/

theorem phase2_held_eq (S : List Token) :
    ∀ (ls : List Line) (rl : BucketMap) (held : List Line),
      (phase2 S ls rl held).2 = held ++ ls.filter (fun l => !(isMatch S l)) := by
  intro ls
  induction ls with
  | nil =>
    intro rl held
    simp [phase2_nil]
  | cons l t ih =>
    intro rl held
    by_cases hm : isMatch S l = true
    · rw [phase2_cons_match t rl held hm, ih, List.filter_cons_of_neg (by simp [hm])]
    · have hm' : isMatch S l = false := Bool.eq_false_iff.mpr hm
      rw [phase2_cons_not_match t rl held hm', ih,
        List.filter_cons_of_pos (by simp [hm']), List.append_assoc, List.singleton_append]

theorem firstSeen_cons (k : Token) (ks : List Token) :
    firstSeen (k :: ks) = k :: firstSeen (ks.filter (fun x => decide (¬ x = k))) := by
  rw [firstSeen]

theorem insertBucket_keys_of_mem (rl : BucketMap) (l : Line)
    (h : residOf l ∈ rl.map Prod.fst) :
    (insertBucket rl l).map Prod.fst = rl.map Prod.fst :=
  aupdate_keys_of_mem _ h

theorem insertBucket_keys_of_not_mem (rl : BucketMap) (l : Line)
    (h : ¬ residOf l ∈ rl.map Prod.fst) :
    (insertBucket rl l).map Prod.fst = rl.map Prod.fst ++ [residOf l] :=
  aupdate_keys_of_not_mem _ h

theorem phase2_keys (S : List Token) :
    ∀ (ls : List Line) (rl : BucketMap) (held : List Line),
      (phase2 S ls rl held).1.map Prod.fst
        = rl.map Prod.fst
          ++ firstSeen (((ls.filter (isMatch S)).map residOf).filter
                (fun k => decide (¬ k ∈ rl.map Prod.fst))) := by
  intro ls
  induction ls with
  | nil =>
    intro rl held
    simp [phase2_nil, firstSeen]
  | cons l t ih =>
    intro rl held
    by_cases hm : isMatch S l = true
    · rw [phase2_cons_match t rl held hm, ih, List.filter_cons_of_pos hm, List.map_cons]
      by_cases hk : residOf l ∈ rl.map Prod.fst
      · rw [insertBucket_keys_of_mem rl l hk,
          List.filter_cons_of_neg (by simp [hk])]
      · rw [insertBucket_keys_of_not_mem rl l hk,
          List.filter_cons_of_pos (by simp [hk]), firstSeen_cons,
          List.filter_filter, List.append_assoc, List.singleton_append]
        congr 2
        congr 1
        apply List.filter_congr
        intro x _
        by_cases hx1 : x ∈ rl.map Prod.fst <;> by_cases hx2 : x = residOf l <;>
          simp [hx1, hx2, List.mem_append]
    · have hm' : isMatch S l = false := Bool.eq_false_iff.mpr hm
      rw [phase2_cons_not_match t rl held hm', ih,
        List.filter_cons_of_neg (by simp [hm'])]

/-! ### Conservation counting -/

theorem bucketLines_nil : bucketLines [] = [] := rfl

theorem bucketLines_cons (e : Token × List Line) (m : BucketMap) :
    bucketLines (e :: m) = e.2 ++ bucketLines m := rfl

theorem insertBucket_count (rl : BucketMap) (l x : Line) :
    (bucketLines (insertBucket rl l)).count x
      = (bucketLines rl).count x + ([l].count x) := by
  unfold insertBucket
  induction rl with
  | nil =>
    simp [aupdate, alookup, bucketLines]
  | cons e es ih =>
    by_cases he : e.1 = residOf l
    · rw [alookup_cons_self he]
      simp only [aupdate, if_pos he, Option.getD_some, bucketLines_cons,
        List.count_append]
      omega
    · rw [alookup_cons_ne he]
      simp only [aupdate, if_neg he, bucketLines_cons, List.count_append, ih]
      omega

theorem phase2_count (S : List Token) :
    ∀ (ls : List Line) (rl : BucketMap) (held : List Line) (x : Line),
      (bucketLines (phase2 S ls rl held).1).count x + ((phase2 S ls rl held).2).count x
        = (bucketLines rl).count x + held.count x + ls.count x := by
  intro ls
  induction ls with
  | nil =>
    intro rl held x
    simp [phase2_nil]
  | cons l t ih =>
    intro rl held x
    by_cases hm : isMatch S l = true
    · rw [phase2_cons_match t rl held hm, ih, insertBucket_count]
      simp only [List.count_cons, List.count_nil]
      omega
    · have hm' : isMatch S l = false := Bool.eq_false_iff.mpr hm
      rw [phase2_cons_not_match t rl held hm', ih]
      simp only [List.count_append, List.count_cons, List.count_nil]
      omega

theorem replayBucket_count_le (ref : RefOrder) (lines : List Line)
    (h : ∀ kv ∈ ref, kv.2.Nodup) (x : Line) :
    (replayBucket ref lines).count x ≤ lines.count x := by
  unfold replayBucket
  cases hl : alookup ref (resnameOf (lines.headD [])) with
  | none => exact le_refl _
  | some order =>
    have hnd : order.Nodup := by
      simpa using h _ (alookup_mem hl)
    rw [buildSorted_count lines x order hnd]
    by_cases hx : atomNameOf x ∈ order
    · simp [hx]
    · simp [hx]

theorem replay_flatten_count_le (ref : RefOrder) (h : ∀ kv ∈ ref, kv.2.Nodup) :
    ∀ (rl : BucketMap) (x : Line),
      ((rl.map (fun e => replayBucket ref e.2)).flatten).count x
        ≤ (bucketLines rl).count x := by
  intro rl
  induction rl with
  | nil =>
    intro x
    simp [bucketLines]
  | cons e es ih =>
    intro x
    simp only [List.map_cons, List.flatten_cons, bucketLines_cons, List.count_append]
    exact Nat.add_le_add (replayBucket_count_le ref e.2 h x) (ih x)

theorem bufferBuckets_count_le (S : List Token) (buf : Option Line) (x : Line) :
    (bucketLines (bufferBuckets S buf)).count x ≤ (buf.toList).count x := by
  cases buf with
  | none => simp [bufferBuckets, bucketLines]
  | some b =>
    by_cases h1 : startswithRecords b
    · by_cases h2 : resnameOf b ∈ S
      · simp [bufferBuckets, h1, h2, insertBucket, alookup, aupdate, bucketLines]
      · simp [bufferBuckets, h1, h2, bucketLines]
    · simp [bufferBuckets, h1, bucketLines]

theorem run_eq (lines : List Line) (S : List Token) :
    run lines S
      = (phase1 S lines []).yielded
        ++ ((phase2 S (phase1 S lines []).rest
              (bufferBuckets S (phase1 S lines []).buffer) []).1.map
              (fun e => replayBucket (phase1 S lines []).ref e.2)).flatten
        ++ (phase2 S (phase1 S lines []).rest
              (bufferBuckets S (phase1 S lines []).buffer) []).2 := rfl

/-! ### The claims -/

/-- C1: the claim states total-line conservation — the output multiset of
`run` always equals the input multiset, in particular for record lines with
non-matching residue names seen in phase 1 and for bucketed lines whose atom
name is absent from the learned order.  The code violates both parts: the
phase-1 loop has no branch for a record line whose residue name is outside
the set (the line is silently dropped), and the replay step only emits
bucket lines whose atom name occurs in the learned order.  Both drops are
exhibited here on concrete inputs. -/
theorem run_conservation_fails :
    run [glyN3] setALA = [] ∧ ¬ ([glyN3] = ([] : List Line))
      ∧ run [alaN1, alaN2, alaCA2] setALA = [alaN1, alaN2]
      ∧ alaCA2 ∈ [alaN1, alaN2, alaCA2]
      ∧ ¬ alaCA2 ∈ run [alaN1, alaN2, alaCA2] setALA := by
  decide

/-- C2: the claim states that a phase-1 record line whose trimmed residue
name is not in the set is emitted immediately in its original position.  In
the code such a line is dropped (phase 1 does continue): on the input
`[glyN3, alaN1]` with set `{ALA}`, the GLY record is absent from the output
while the following line was still processed by phase 1. -/
theorem phase1_nonmatching_record_dropped :
    run [glyN3, alaN1] setALA = [alaN1]
      ∧ ¬ glyN3 ∈ run [glyN3, alaN1] setALA := by
  decide

/-- C3: the claim states the no-op property — when no line has a trimmed
residue name in the set, the output equals the input line for line.  It
fails on the code because phase 1 drops non-matching record lines: the
input `[remarkLine, glyN3]` contains no matching residue name, yet the GLY
record disappears from the output. -/
theorem noop_property_fails :
    (∀ l ∈ [remarkLine, glyN3], ¬ resnameOf l ∈ setALA)
      ∧ run [remarkLine, glyN3] setALA = [remarkLine]
      ∧ ¬ run [remarkLine, glyN3] setALA = [remarkLine, glyN3] := by
  decide

/-- C4, counterexample: the claim states that phase-2 buckets are keyed by
the exact untrimmed residue-sequence-id field, two lines sharing a bucket
only if their raw `[22,26)` substrings are equal.  The code strips the
field: these two lines have different raw substrings (" 2  " and "  2 ")
yet end up in the same bucket, keyed by the trimmed token "2". -/
theorem bucket_key_not_raw :
    ¬ pySlice alaCArawA 22 26 = pySlice alaNrawB 22 26
      ∧ (phase2 setALA [alaCArawA, alaNrawB] [] []).1
          = [("2".toList, [alaCArawA, alaNrawB])] := by
  decide

/-- C4, amended: phase-2 buckets are keyed by the whitespace-trimmed
residue-sequence-id field `[22,26)` (never parsed as an integer): two lines
routed to buckets land in the same bucket exactly when their trimmed
residue-sequence-id tokens are equal. -/
theorem bucket_same_iff_trimmed_resid (l1 l2 : Line) :
    (∃ e ∈ insertBucket (insertBucket [] l1) l2, l1 ∈ e.2 ∧ l2 ∈ e.2)
      ↔ residOf l1 = residOf l2 := by
  by_cases hr : residOf l1 = residOf l2
  · refine iff_of_true ?_ hr
    have hb : insertBucket (insertBucket [] l1) l2 = [(residOf l2, [l1, l2])] := by
      simp [insertBucket, alookup, aupdate, hr]
    rw [hb]
    exact ⟨(residOf l2, [l1, l2]), List.mem_singleton.mpr rfl,
      List.mem_cons_self _ _, List.mem_cons_of_mem _ (List.mem_singleton.mpr rfl)⟩
  · refine iff_of_false ?_ hr
    rintro ⟨e, he, hl1, hl2⟩
    have hb : insertBucket (insertBucket [] l1) l2
        = [(residOf l1, [l1]), (residOf l2, [l2])] := by
      simp [insertBucket, alookup, aupdate, hr]
    rw [hb] at he
    rcases List.mem_cons.mp he with heq | he2
    · rw [heq] at hl2
      exact hr (by rw [List.mem_singleton.mp hl2])
    · rcases List.mem_cons.mp he2 with heq | he3
      · rw [heq] at hl1
        exact hr (by rw [← List.mem_singleton.mp hl1])
      · cases he3

/-- C5: for a phase-2 bucket whose first line has a residue name with a
learned reference order, the replay emits the bucket grouped by atom name
following the learned sequence, each group being the in-order (stable)
filter of the bucket lines with that atom name. -/
theorem replayBucket_learned_groups (ref : RefOrder) (lines : List Line)
    (order : List Token)
    (h : alookup ref (resnameOf (lines.headD [])) = some order) :
    replayBucket ref lines
      = (order.map (fun an => lines.filter (fun l => atomNameOf l = an))).flatten := by
  unfold replayBucket
  rw [h]
  exact buildSorted_eq_flatten lines order

/-- C5, witness: a bucket holding the second ALA instance stored as
[CA-line, N-line] is replayed in the learned order [N, CA]. -/
theorem replayBucket_learned_groups_witness :
    replayBucket refW [alaCA2, alaN2] = [alaN2, alaCA2] :=
  (replayBucket_learned_groups refW [alaCA2, alaN2]
    ["N".toList, "CA".toList] (by decide)).trans (by decide)

/-- C6: the output of `run` is the phase-1 output, then the replayed
phase-2 buckets in the order in which their keys were first created, then
every held phase-2 line (non-record or non-matching) in original relative
order at the very end. -/
theorem run_emission_structure (lines : List Line) (S : List Token) :
    run lines S
      = (phase1 S lines []).yielded
        ++ ((phase2 S (phase1 S lines []).rest
              (bufferBuckets S (phase1 S lines []).buffer) []).1.map
              (fun e => replayBucket (phase1 S lines []).ref e.2)).flatten
        ++ (phase1 S lines []).rest.filter (fun l => !(isMatch S l))
      ∧ (phase2 S (phase1 S lines []).rest
              (bufferBuckets S (phase1 S lines []).buffer) []).1.map Prod.fst
          = firstSeen ((((phase1 S lines []).buffer.toList
                ++ (phase1 S lines []).rest).filter (isMatch S)).map residOf) := by
  constructor
  · rw [run_eq, phase2_held_eq, List.nil_append]
  · rw [phase2_keys]
    cases hb : (phase1 S lines []).buffer with
    | none =>
      simp only [bufferBuckets, List.map_nil, List.nil_append, Option.toList_none]
      congr 1
      have : ∀ x ∈ ((phase1 S lines []).rest.filter (isMatch S)).map residOf,
          (fun k => decide (¬ k ∈ ([] : List Token))) x = true := by
        intro x _
        simp
      rw [List.filter_eq_self.mpr this]
    | some b =>
      have hmb : isMatch S b = true := phase1_buffer_isMatch S lines [] b hb
      obtain ⟨h1, h2⟩ := (isMatch_true_iff S b).mp hmb
      have hbb : bufferBuckets S (some b) = [(residOf b, [b])] := by
        simp [bufferBuckets, h1, h2, insertBucket, alookup, aupdate]
      rw [hbb, Option.toList_some, List.singleton_append,
        List.filter_cons_of_pos hmb]
      simp only [List.map_cons, List.map_nil, firstSeen_cons, List.cons_append,
        List.nil_append]
      congr 2
      apply List.filter_congr
      intro x _
      simp

/-- C7: a phase-2 bucket whose first line has a residue name with no entry
in the learned reference order is replayed unmodified, in its original
relative order. -/
theorem replayBucket_unlearned (ref : RefOrder) (lines : List Line)
    (h : alookup ref (resnameOf (lines.headD [])) = none) :
    replayBucket ref lines = lines := by
  unfold replayBucket
  rw [h]

/-- C7, witness: a bucket of ALA lines is left unchanged by a reference
order that only has an entry for GLY. -/
theorem replayBucket_unlearned_witness :
    replayBucket refGLYonly [alaN2, alaCA2] = [alaN2, alaCA2] :=
  replayBucket_unlearned refGLYonly [alaN2, alaCA2] (by decide)

/-- C8: two matching record lines with different residue names but the same
(trimmed) residue-sequence-id key are merged into one phase-2 bucket, and
the residue name of the first line alone selects the reference order used
for the replay: any two reference maps agreeing on that first residue name
replay the bucket identically. -/
theorem bucket_merge_shared_id (S : List Token) (l1 l2 : Line)
    (ref ref' : RefOrder)
    (h1 : isMatch S l1 = true) (h2 : isMatch S l2 = true)
    (hr : residOf l1 = residOf l2)
    (_hn : ¬ resnameOf l1 = resnameOf l2)
    (he : alookup ref (resnameOf l1) = alookup ref' (resnameOf l1)) :
    (phase2 S [l1, l2] [] []).1 = [(residOf l1, [l1, l2])]
      ∧ replayBucket ref [l1, l2] = replayBucket ref' [l1, l2] := by
  constructor
  · rw [phase2_cons_match [l2] [] [] h1, phase2_cons_match [] _ [] h2, phase2_nil]
    simp [insertBucket, alookup, aupdate, hr]
  · unfold replayBucket
    rw [show ([l1, l2].headD []) = l1 from rfl, he]

/-- C8, witness: an ALA line and a GLY line sharing the sequence id 7 merge
into a single bucket led by the ALA line, and the replay only consults the
reference entry for ALA. -/
theorem bucket_merge_shared_id_witness :
    (phase2 setALAGLY [alaN7, glyCA7] [] []).1 = [(residOf alaN7, [alaN7, glyCA7])]
      ∧ replayBucket refGLYonly [alaN7, glyCA7] = replayBucket [] [alaN7, glyCA7] :=
  bucket_merge_shared_id setALAGLY alaN7 glyCA7 refGLYonly []
    (by decide) (by decide) (by decide) (by decide) (by decide)

/-- C9: `run` is total over arbitrary text lines; on a line too short to
reach the fixed columns, all three field extractions yield the empty string
and the line is processed with the empty token as its residue/atom name
like any other line (emitted when non-record or when the empty residue name
is in the set, silently dropped otherwise), never an error. -/
theorem run_total_short_line (l : Line) (S : List Token) (h : l.length ≤ 12) :
    pySlice l 12 16 = [] ∧ pySlice l 17 20 = [] ∧ pySlice l 22 26 = []
      ∧ resnameOf l = [] ∧ atomNameOf l = []
      ∧ run [l] S
          = (if startswithRecords l = false ∨ isMatch S l = true then [l] else []) := by
  have h12 : l.drop 12 = [] := List.drop_eq_nil_of_le h
  have h17 : l.drop 17 = [] := List.drop_eq_nil_of_le (h.trans (by omega))
  have h22 : l.drop 22 = [] := List.drop_eq_nil_of_le (h.trans (by omega))
  have hs12 : pySlice l 12 16 = [] := by simp [pySlice, h12]
  have hs17 : pySlice l 17 20 = [] := by simp [pySlice, h17]
  have hs22 : pySlice l 22 26 = [] := by simp [pySlice, h22]
  have hrn : resnameOf l = [] := by rw [resnameOf, hs17]; rfl
  have hat : atomNameOf l = [] := by rw [atomNameOf, hs12]; rfl
  refine ⟨hs12, hs17, hs22, hrn, hat, ?_⟩
  by_cases h1 : startswithRecords l
  · by_cases h2 : resnameOf l ∈ S
    · have hm : isMatch S l = true := (isMatch_true_iff S l).mpr ⟨h1, h2⟩
      rw [run_eq, phase1_cons_learn [] [] h1 h2
        (by simp [alookup])]
      simp [phase1_nil, bufferBuckets, phase2_nil, h1, hm]
    · have hm : ¬ isMatch S l = true := by
        intro hm
        exact h2 ((isMatch_true_iff S l).mp hm).2
      rw [run_eq, phase1_cons_drop [] [] h1 h2]
      simp [phase1_nil, bufferBuckets, phase2_nil, h1, hm]
  · rw [run_eq, phase1_cons_pass [] [] (Bool.of_not_eq_true h1)]
    simp [phase1_nil, bufferBuckets, phase2_nil, Bool.of_not_eq_true h1]

/-- C9, witness: the bare line "TER" (length 3) is a record line with empty
residue-name and atom-name tokens; with the empty token in the set, it is
processed normally and emitted. -/
theorem run_total_short_line_witness :
    pySlice "TER".toList 12 16 = [] ∧ pySlice "TER".toList 17 20 = []
      ∧ pySlice "TER".toList 22 26 = []
      ∧ resnameOf "TER".toList = [] ∧ atomNameOf "TER".toList = []
      ∧ run ["TER".toList] [([] : Token)]
          = (if startswithRecords "TER".toList = false
                ∨ isMatch [([] : Token)] "TER".toList = true
            then ["TER".toList] else []) :=
  run_total_short_line "TER".toList [([] : Token)] (by decide)

/-- C10: every input line is yielded at most once — for every line value,
its multiplicity in the output of `run` is at most its multiplicity in the
input, so the output multiset is contained in the input multiset and no
duplication ever occurs. -/
theorem run_output_count_le (lines : List Line) (S : List Token) (x : Line) :
    (run lines S).count x ≤ lines.count x := by
  rw [run_eq, List.count_append, List.count_append]
  have hnd : ∀ kv ∈ (phase1 S lines []).ref, kv.2.Nodup :=
    phase1_ref_nodup S lines [] (by intro kv hkv; cases hkv)
  have h2 := replay_flatten_count_le (phase1 S lines []).ref hnd
    (phase2 S (phase1 S lines []).rest
      (bufferBuckets S (phase1 S lines []).buffer) []).1 x
  have h3 := phase2_count S (phase1 S lines []).rest
    (bufferBuckets S (phase1 S lines []).buffer) [] x
  have h4 := bufferBuckets_count_le S (phase1 S lines []).buffer x
  have h5 := (phase1_parts_sublist S lines []).count_le x
  rw [List.count_append, List.count_append] at h5
  simp only [List.count_nil] at h3
  omega

end PdbReorder
